import Mathlib

/-!
Verification of the ranked combinatorial search engine of the Radviz
"Score Plots" widget (`Orange/widgets/visualize/owradviz.py`).

The development embeds, as executable Lean functions:

* the state enumerator `RadvizVizRank.iterate_states` (the in-place
  next-combination successor, the fuelled `combinations` generator, the
  lexicographic-order permutations of `itertools.permutations`, and the
  half-permutation block emitted for each combination skeleton);
* the scoring glue `RadvizVizRank._evaluate_projection`,
  `RadvizVizRank.compute_score` and `RadvizVizRank.row_for_state`, with the
  external sklearn/numpy collaborators abstracted as function-valued fields;
* the precondition checks `OWRadviz.check_data` and `OWRadviz._init_vizrank`;
* the run-preparation transition `RadvizVizRank.before_running`.

Missing values (NaN) are modelled as `Option` values; real-valued data is
modelled over `ℚ`.
-/

/-- One in-place successor step of the `combinations(n, s)` generator inside
`RadvizVizRank.iterate_states`.  The Python loop walks `up = 0, 1, ...` doing
`s[up] += 1`, stops as soon as `up` is the last index or `s[up] < s[up+1]`,
and otherwise resets `s[up] = up` and moves on.  `i` is the index of the head
cell of the remaining list. -/
def combSucc : Nat → List Nat → List Nat
  | _, [] => []
  | _, [x] => [x + 1]
  | i, x :: y :: rest =>
    if x + 1 < y then (x + 1) :: y :: rest
    else i :: combSucc (i + 1) (y :: rest)

/-- The fuelled `combinations(n, s)` generator of
`RadvizVizRank.iterate_states`: yield the current skeleton `s`, compute the
in-place successor, and then either continue with it (when its last entry is
not `n`), grow the skeleton to `list(range(len(s) + 1))` (when the last entry
is `n` and the length is below `self.n_attrs`, here `m`), or stop.  Fuel
bounds the number of yielded skeletons; every run analysed below is given
enough fuel to reach the `break`. -/
def combinations (n m : Nat) : List Nat → Nat → List (List Nat)
  | _, 0 => []
  | s, fuel + 1 =>
    s ::
      (let s2 := combSucc 0 s
       if s2.getLastD 0 = n then
         if s2.length < m then
           combinations n m (List.range (s2.length + 1)) fuel
         else []
       else combinations n m s2 fuel)

/-- All ways to pick one element out of a list together with the remaining
elements, in position order — the selection order used by
`itertools.permutations`. -/
def pickEach {α : Type} : List α → List (α × List α)
  | [] => []
  | x :: xs => (x, xs) :: (pickEach xs).map (fun p => (p.1, x :: p.2))

/-- Fuelled worker for `lexPerms`; the fuel is the length of the list. -/
def lexPermsAux {α : Type} : Nat → List α → List (List α)
  | 0, _ => [[]]
  | fuel + 1, l =>
    (pickEach l).flatMap (fun p => (lexPermsAux fuel p.2).map (p.1 :: ·))

/-- The permutations of a list in the order produced by
`itertools.permutations`: lexicographic in the positions of the input. -/
def lexPerms {α : Type} (l : List α) : List (List α) := lexPermsAux l.length l

/-- The block of states emitted for one skeleton `c` by
`RadvizVizRank.iterate_states`: `(c[0],) + p` for `p` ranging over
`islice(permutations(c[1:]), factorial(len(c) - 1) // 2)`. -/
def stateBlock (c : List Nat) : List (List Nat) :=
  ((lexPerms c.tail).take (Nat.factorial (c.length - 1) / 2)).map
    (fun p => c.headI :: p)

/-- `RadvizVizRank.iterate_states`: on a fresh call (`state is None`) start
from `list(range(3))`, otherwise from the given state; then emit, for each
skeleton produced by `combinations`, its half-permutation block.  `n` is
`len(self.attrs)` and `m` is `self.n_attrs`. -/
def iterate_states (n m : Nat) (state : Option (List Nat)) (fuel : Nat) :
    List (List Nat) :=
  (combinations n m (state.getD (List.range 3)) fuel).flatMap stateBlock

/-- Fuel sufficient for every terminating run with `m ≤ n`: the generator
yields at most `∑ k, C(n, k) = 2 ^ n` skeletons. -/
def genFuel (n : Nat) : Nat := 2 ^ n

/-- The full state sequence of a fresh (non-resumed) run. -/
def freshStates (n m : Nat) : List (List Nat) :=
  iterate_states n m none (genFuel n)

/-- The state sequence of a run resumed from the saved state `s`. -/
def resumeStates (n m : Nat) (s : List Nat) : List (List Nat) :=
  iterate_states n m (some s) (genFuel n)

/-- A valid combination skeleton over `n` candidates: a strictly increasing
list of indices below `n`. -/
def IsCombo (n : Nat) (s : List Nat) : Prop :=
  List.Pairwise (· < ·) s ∧ ∀ x ∈ s, x < n

instance (n : Nat) (s : List Nat) : Decidable (IsCombo n s) := by
  unfold IsCombo; infer_instance

/-- All size-`k` combination skeletons over `{0..n-1}` in colexicographic
order — the order in which the successor chain of `combinations` visits
them.  Proof device used to characterise the generator. -/
def colexCombos : Nat → Nat → List (List Nat)
  | _, 0 => [[]]
  | 0, _ + 1 => []
  | n + 1, k + 1 =>
    colexCombos n (k + 1) ++ (colexCombos n k).map (fun s => s ++ [n])

/-- The skeleton sequence of a complete fresh run: all combinations of sizes
`3 .. m` in colexicographic order per size. -/
def skeletonList (n m : Nat) : List (List Nat) :=
  (List.range' 3 (m - 2)).flatMap (colexCombos n)

/-- The reversal-equivalent counterpart of an emitted state: same anchor,
remaining elements in reversed order (radial projections are invariant under
this reversal, which is what the permutation half-slice tries to exploit). -/
def revCounterpart (s : List Nat) : List Nat := s.headI :: s.tail.reverse

/-! ## The projection evaluator -/

/-- External collaborators of the scorer, abstracted as functions:
`crossValScores k isClassifier folds points target` stands for
`cross_val_score(KNeighbors{Classifier|Regressor}(n_neighbors=k), points,
target, cv=folds)` (sklearn), and `choice n k` for
`np.random.choice(n, k, replace=False)` (numpy). -/
structure Collab where
  crossValScores : Nat → Bool → Nat → List (ℚ × ℚ) → List ℚ → List ℚ
  choice : Nat → Nat → List Nat

/-- The only error the evaluator itself can raise: its `assert` firing. -/
inductive EvalError
  | assertionFailed
deriving DecidableEq

/-- `scores.mean()`. -/
def listMean (l : List ℚ) : ℚ := l.sum / l.length

/-- The subsampling prologue of `RadvizVizRank._evaluate_projection`: when
`percent_data_used != 100`, draw
`rand = np.random.choice(len(x), int(len(x) * percent / 100), replace=False)`
and keep `x[rand]`, `y[rand]`. -/
def subsampleStep (co : Collab) (percent : Nat)
    (x : List (Option ℚ × Option ℚ)) (y : List ℚ) :
    List (Option ℚ × Option ℚ) × List ℚ :=
  if percent ≠ 100 then
    let rand := co.choice x.length (x.length * percent / 100)
    (rand.filterMap (fun i => x[i]?), rand.filterMap (fun i => y[i]?))
  else (x, y)

/-- `np.isnan(x).any(axis=None)` over the two embedded coordinates. -/
def hasNaN (x : List (Option ℚ × Option ℚ)) : Bool :=
  x.any (fun p => p.1.isNone || p.2.isNone)

/-- `RadvizVizRank._evaluate_projection`.  After the optional subsampling the
source asserts `~(np.isnan(x).any(axis=None) | np.isnan(x).any(axis=None))`
(both operands scan `x`; `y` is not checked), then fits a 3-nearest-neighbour
classifier (discrete target) or regressor (continuous target) on the embedded
points and returns `cross_val_score(neigh, x, y, cv=3).mean()`. -/
def evaluate_projection (co : Collab) (isDiscrete : Bool) (percent : Nat)
    (x : List (Option ℚ × Option ℚ)) (y : List ℚ) : Except EvalError ℚ :=
  let xy := subsampleStep co percent x y
  if hasNaN xy.1 || hasNaN xy.1 then Except.error EvalError.assertionFailed
  else
    Except.ok (listMean (co.crossValScores 3 isDiscrete 3
      (xy.1.map (fun p => (p.1.getD 0, p.2.getD 0))) xy.2))

/-- `RadvizVizRank.compute_score` downstream of the `radviz` collaborator:
the projection of the chosen state yields the embedded points `radvizXY`
and the masked target `maskedY`; the score is the negated evaluation. -/
def compute_score (co : Collab) (isDiscrete : Bool) (percent : Nat)
    (radvizXY : List (Option ℚ × Option ℚ)) (maskedY : List ℚ) :
    Except EvalError ℚ :=
  (evaluate_projection co isDiscrete percent radvizXY maskedY).map (fun s => -s)

/-- Fixed-point rendering of `"{:0.6f}".format(q)`: six digits after the
decimal point. -/
def formatFixed6 (q : ℚ) : String :=
  let scaled : Int := round (q * 1000000)
  let a := scaled.natAbs
  let frac := toString (a % 1000000)
  (if scaled < 0 then "-" else "") ++ toString (a / 1000000) ++ "." ++
    String.mk (List.replicate (6 - frac.length) '0') ++ frac

/-- The textual content of the leaderboard row built by
`RadvizVizRank.row_for_state`:
`"[{:0.6f}] ".format(-score) + ", ".join(a.name for a in attrs)`, where
`attrs = [self.attrs[s] for s in state]`. -/
def row_for_state (attrNames : List String) (score : ℚ) (state : List Nat) :
    String :=
  "[" ++ formatFixed6 (-score) ++ "] " ++
    String.intercalate ", " (state.map (fun i => (attrNames[i]?).getD ""))

/-! ## Precondition checks -/

/-- The data reaching `OWRadviz.check_data` / `OWRadviz._init_vizrank`:
feature matrix `X` (rows of possibly missing values), the colour column `Y`
(via `get_column_view(attr_color)`), the number of primitive variables of the
domain, and whether a colour attribute is set. -/
structure MasterData where
  X : List (List (Option ℚ))
  Y : List (Option ℚ)
  nPrimitive : Nat
  hasColor : Bool

/-- The two error conditions of `OWRadviz.check_data`. -/
inductive DataError
  | noInstances
  | noFeatures
deriving DecidableEq

/-- `OWRadviz.check_data`: reject the dataset when it has fewer than two
instances, and otherwise when it has fewer than three primitive variables. -/
def check_data (d : MasterData) : Option DataError :=
  if d.X.length < 2 then some DataError.noInstances
  else if d.nPrimitive < 3 then some DataError.noFeatures
  else none

/-- The non-missing entries of a column. -/
def nanValues (col : List (Option ℚ)) : List ℚ := col.filterMap id

/-- The population variance of the non-missing entries of a column
(`np.nanstd(col) ** 2`); `none` when every entry is missing (numpy returns
NaN there). -/
def nanVariance (col : List (Option ℚ)) : Option ℚ :=
  let vs := nanValues col
  if vs.isEmpty then none
  else
    let mu := vs.sum / vs.length
    some ((vs.map (fun v => (v - mu) ^ 2)).sum / vs.length)

/-- `np.nan_to_num(np.nanstd(col, 0)) != 0` for one column of `X`: the
standard deviation is the square root of `nanVariance` and shares its zero
set, and `nan_to_num` sends the all-missing NaN to `0`. -/
def colStdNonzero (col : List (Option ℚ)) : Bool :=
  match nanVariance col with
  | none => false
  | some v => decide (v ≠ 0)

/-- Modelled from the spec: the base widget's valid-row mask
(`OWAnchorProjectionWidget.valid_data`, not under src/) marks the rows with
no missing value in any requested column, and `len(self.data[self.valid_data])`
counts them. -/
def validRowCount (d : MasterData) : Nat :=
  ((d.X.zip d.Y).filter (fun r => r.1.all Option.isSome && r.2.isSome)).length

/-- The enabling condition computed by `OWRadviz._init_vizrank` (with
`self.data is not None` packaged into the existence of `d`): more than three
primitive variables, a colour attribute that is not entirely missing, more
than one valid row, and no feature column whose `nanstd` maps to zero. -/
def init_vizrank_enabled (d : MasterData) : Bool :=
  decide (3 < d.nPrimitive) && d.hasColor &&
    !(nanValues d.Y).isEmpty && decide (1 < validRowCount d) &&
    d.X.transpose.all colStdNonzero

/-- A VizRank run is blocked when `check_data` rejected the dataset (the
widget then clears `self.data`) or `_init_vizrank` leaves the button
disabled. -/
def initBlocked (d : MasterData) : Bool :=
  (check_data d).isSome || !(init_vizrank_enabled d)

/-! ## Run preparation -/

/-- The fields of `RadvizVizRank` touched by `before_running`. -/
structure RankState where
  n_attrs : Nat
  last_run_n_attrs : Option Nat
  saved_state : Option (List Nat)
  saved_progress : Nat
  scores : List ℚ
  rank_model : List (List Nat)
  spin_disabled : Bool
deriving DecidableEq

/-- `RadvizVizRank.before_running`: when the requested number of attributes
differs from the one of the last run, drop the checkpoint and zero the
progress; then, whenever no checkpoint is present, clear the scores and the
rank model; finally record the run size and disable the spin. -/
def before_running (st : RankState) : RankState :=
  let st1 :=
    if st.last_run_n_attrs ≠ some st.n_attrs then
      { st with saved_state := none, saved_progress := 0 }
    else st
  let st2 :=
    if st1.saved_state = none then { st1 with scores := [], rank_model := [] }
    else st1
  { st2 with last_run_n_attrs := some st2.n_attrs, spin_disabled := true }

/-! ## Concrete instances used in witnesses and counterexamples -/

/-- A concrete collaborator: the cross-validation scores are constantly
`[0, 0, 0]` and `choice n k` picks the first `k` indices. -/
def coZero : Collab :=
  ⟨fun _ _ _ _ _ => [0, 0, 0], fun _ k => List.range k⟩

/-- A concrete two-row dataset whose colour column is present but constant
while every feature column varies. -/
def exampleConstTarget : MasterData :=
  { X := [[some 0, some 0, some 0, some 0], [some 1, some 1, some 1, some 1]],
    Y := [some 0, some 0], nPrimitive := 5, hasColor := true }

/-- A concrete single-row dataset. -/
def exampleOneRow : MasterData :=
  { X := [[some 0, some 0, some 0, some 0]], Y := [some 0],
    nPrimitive := 5, hasColor := true }

/-- A concrete `RadvizVizRank` state with the same requested size as the
last run, no saved checkpoint and nonzero saved progress. -/
def exampleRankState : RankState :=
  { n_attrs := 3, last_run_n_attrs := some 3, saved_state := none,
    saved_progress := 5, scores := [], rank_model := [],
    spin_disabled := false }

/-! ## Basic facts about the successor step -/

theorem headI_of_ne_nil {α : Type} [Inhabited α] {l : List α} {x : α}
    (h : l.head? = some x) : l.headI = x := by
  cases l with
  | nil => simp at h
  | cons a t => simp_all [List.head?]

theorem cons_headI_tail {α : Type} [Inhabited α] {l : List α} (h : l ≠ []) :
    l.headI :: l.tail = l := by
  cases l with
  | nil => exact absurd rfl h
  | cons a t => rfl

theorem combSucc_length (i : Nat) (s : List Nat) :
    (combSucc i s).length = s.length := by
  induction s generalizing i with
  | nil => rfl
  | cons x t ih =>
    cases t with
    | nil => rfl
    | cons y r =>
      simp only [combSucc]
      split
      · rfl
      · simpa using ih (i + 1)

theorem combSucc_range' (k i a : Nat) (hk : 1 ≤ k) :
    combSucc i (List.range' a k) = List.range' i (k - 1) ++ [a + k] := by
  induction k generalizing i a with
  | zero => omega
  | succ j ih =>
    cases j with
    | zero => simp [List.range'_succ, combSucc]
    | succ j' =>
      rw [List.range'_succ, List.range'_succ]
      simp only [combSucc, Nat.lt_irrefl, if_neg (lt_irrefl (a + 1))]
      rw [← List.range'_succ (a + 1) j' 1, ih (i + 1) (a + 1) (by omega)]
      have : List.range' i (j' + 2 - 1) = i :: List.range' (i + 1) (j' + 1 - 1) := by
        simp [List.range'_succ]
      rw [this]
      simp
      omega

theorem combSucc_append_last (v : Nat) :
    ∀ (a : List Nat) (i : Nat), a ≠ [] → (∀ x ∈ combSucc i a, x < v) →
      combSucc i (a ++ [v]) = combSucc i a ++ [v]
  | [], _, h, _ => absurd rfl h
  | [x], i, _, hlt => by
    have hx : x + 1 < v := hlt (x + 1) (by simp [combSucc])
    simp [combSucc, hx]
  | x :: y :: t, i, _, hlt => by
    by_cases hxy : x + 1 < y
    · simp [combSucc, hxy]
    · have hre : combSucc i (x :: y :: t) = i :: combSucc (i + 1) (y :: t) := by
        simp [combSucc, hxy]
      have htl : ∀ z ∈ combSucc (i + 1) (y :: t), z < v := by
        intro z hz
        exact hlt z (by rw [hre]; exact List.mem_cons_of_mem _ hz)
      have hih := combSucc_append_last v (y :: t) (i + 1) (by simp) htl
      show combSucc i (x :: y :: (t ++ [v])) = combSucc i (x :: y :: t) ++ [v]
      rw [hre]
      have h2 : combSucc i (x :: y :: (t ++ [v])) =
          i :: combSucc (i + 1) (y :: (t ++ [v])) := by
        simp [combSucc, hxy]
      have h3 : combSucc (i + 1) (y :: (t ++ [v])) =
          combSucc (i + 1) (y :: t) ++ [v] := hih
      rw [h2, h3]
      simp

/-! ## The colexicographic combination list -/

theorem colexCombos_eq_nil : ∀ (n k : Nat), n < k → colexCombos n k = []
  | _, 0, h => absurd h (by omega)
  | 0, _ + 1, _ => rfl
  | n + 1, k + 1, h => by
    simp only [colexCombos]
    rw [colexCombos_eq_nil n (k + 1) (by omega), colexCombos_eq_nil n k (by omega)]
    rfl

theorem colexCombos_ne_nil : ∀ (n k : Nat), k ≤ n → colexCombos n k ≠ []
  | _, 0, _ => by simp [colexCombos]
  | 0, k + 1, h => absurd h (by omega)
  | n + 1, k + 1, h => by
    simp only [colexCombos]
    intro hcontra
    rcases List.append_eq_nil.mp hcontra with ⟨_, h2⟩
    exact colexCombos_ne_nil n k (by omega) (List.map_eq_nil_iff.mp h2)

theorem head?_colexCombos : ∀ (n k : Nat), k ≤ n →
    (colexCombos n k).head? = some (List.range k)
  | _, 0, _ => by simp [colexCombos]
  | 0, k + 1, h => absurd h (by omega)
  | n + 1, k + 1, h => by
    simp only [colexCombos, List.head?_append]
    by_cases hkn : k + 1 ≤ n
    · rw [head?_colexCombos n (k + 1) hkn]
      rfl
    · have hk : k = n := by omega
      subst hk
      rw [colexCombos_eq_nil k (k + 1) (by omega)]
      simp only [List.nil_append, List.head?_map]
      rw [head?_colexCombos k k le_rfl]
      simp [List.range_succ]

theorem getLast?_colexCombos : ∀ (n k : Nat), k ≤ n →
    (colexCombos n k).getLast? = some (List.range' (n - k) k)
  | n, 0, _ => by simp [colexCombos]
  | 0, k + 1, h => absurd h (by omega)
  | n + 1, k + 1, h => by
    simp only [colexCombos, List.getLast?_append, List.getLast?_map]
    rw [getLast?_colexCombos n k (by omega)]
    have heq : List.range' (n + 1 - (k + 1)) (k + 1) = List.range' (n - k) k ++ [n] := by
      have h1 : n + 1 - (k + 1) = n - k := by omega
      rw [h1, @List.range'_concat 1 (n - k) k]
      have h2 : n - k + 1 * k = n := by omega
      rw [h2]
    rw [heq]
    simp

theorem mem_colexCombos (n : Nat) : ∀ (k : Nat) (s : List Nat),
    s ∈ colexCombos n k ↔ IsCombo n s ∧ s.length = k := by
  induction n with
  | zero =>
    intro k s
    cases k with
    | zero =>
      simp only [colexCombos, List.mem_singleton]
      constructor
      · rintro rfl
        exact ⟨⟨List.Pairwise.nil, by simp⟩, rfl⟩
      · rintro ⟨_, hlen⟩
        exact List.eq_nil_of_length_eq_zero hlen
    | succ k =>
      simp only [colexCombos, List.not_mem_nil, false_iff]
      rintro ⟨⟨_, hbound⟩, hlen⟩
      have : s ≠ [] := by intro hc; subst hc; simp at hlen
      rcases List.exists_mem_of_ne_nil s this with ⟨x, hx⟩
      exact absurd (hbound x hx) (by omega)
  | succ n ih =>
    intro k s
    cases k with
    | zero =>
      simp only [colexCombos, List.mem_singleton]
      constructor
      · rintro rfl
        exact ⟨⟨List.Pairwise.nil, by simp⟩, rfl⟩
      · rintro ⟨_, hlen⟩
        exact List.eq_nil_of_length_eq_zero hlen
    | succ k =>
      simp only [colexCombos, List.mem_append, List.mem_map]
      constructor
      · rintro (hmem | ⟨a, hamem, rfl⟩)
        · rcases (ih _ _).mp hmem with ⟨⟨hpw, hbd⟩, hlen⟩
          exact ⟨⟨hpw, fun x hx => Nat.lt_succ_of_lt (hbd x hx)⟩, hlen⟩
        · rcases (ih _ _).mp hamem with ⟨⟨hpw, hbd⟩, hlen⟩
          refine ⟨⟨?_, ?_⟩, by simp [hlen]⟩
          · rw [List.pairwise_append]
            exact ⟨hpw, List.pairwise_singleton _ _,
              fun x hx y hy => by simp at hy; subst hy; exact hbd x hx⟩
          · intro x hx
            rcases List.mem_append.mp hx with hxa | hxn
            · exact Nat.lt_succ_of_lt (hbd x hxa)
            · simp at hxn; omega
      · rintro ⟨⟨hpw, hbd⟩, hlen⟩
        by_cases hn : n ∈ s
        · right
          have hne : s ≠ [] := by intro hc; subst hc; simp at hn
          have hdec := List.dropLast_append_getLast hne
          have hpw2 : List.Pairwise (· < ·) (s.dropLast ++ [s.getLast hne]) := by
            rw [hdec]; exact hpw
          rw [List.pairwise_append] at hpw2
          have hlast : ∀ y ∈ s.dropLast, y < s.getLast hne := by
            intro y hy
            exact hpw2.2.2 y hy _ (by simp)
          have hxn : s.getLast hne = n := by
            have hn2 : n ∈ s.dropLast ++ [s.getLast hne] := by rw [hdec]; exact hn
            rcases List.mem_append.mp hn2 with hmem | hmem
            · have h1 := hlast n hmem
              have h2 := hbd (s.getLast hne) (List.getLast_mem hne)
              omega
            · simp at hmem; omega
          refine ⟨s.dropLast,
            (ih _ _).mpr ⟨⟨hpw2.1, fun y hy => hxn ▸ hlast y hy⟩, ?_⟩,
            by rw [← hxn]; exact hdec⟩
          have := List.length_dropLast s
          omega
        · left
          refine (ih _ _).mpr ⟨⟨hpw, fun x hx => ?_⟩, hlen⟩
          have := hbd x hx
          have : x ≠ n := fun hc => hn (hc ▸ hx)
          omega

theorem nodup_colexCombos : ∀ (n k : Nat), (colexCombos n k).Nodup
  | _, 0 => by simp [colexCombos]
  | 0, _ + 1 => by simp [colexCombos]
  | n + 1, k + 1 => by
    simp only [colexCombos]
    rw [List.nodup_append]
    refine ⟨nodup_colexCombos n (k + 1), ?_, ?_⟩
    · refine List.Nodup.map ?_ (nodup_colexCombos n k)
      intro a b hab
      have := congrArg List.dropLast hab
      simpa using this
    · intro x hx1 hx2
      rcases List.mem_map.mp hx2 with ⟨a, _, rfl⟩
      rcases (mem_colexCombos n (k + 1) _).mp hx1 with ⟨⟨_, hbd⟩, _⟩
      have hmem : n ∈ a ++ [n] := List.mem_append_right _ (by simp)
      have := hbd n hmem
      omega

theorem length_colexCombos : ∀ (n k : Nat), (colexCombos n k).length = n.choose k
  | _, 0 => by simp [colexCombos]
  | 0, k + 1 => by simp [colexCombos]
  | n + 1, k + 1 => by
    simp only [colexCombos, List.length_append, List.length_map]
    rw [length_colexCombos n (k + 1), length_colexCombos n k, Nat.choose_succ_succ]
    simp only [Nat.succ_eq_add_one]
    omega

theorem chain'_of_mem_imp {α : Type} {R S : α → α → Prop} (P : α → Prop) :
    ∀ {l : List α}, (∀ x ∈ l, P x) → (∀ a b, P a → P b → R a b → S a b) →
      List.Chain' R l → List.Chain' S l
  | [], _, _, _ => List.chain'_nil
  | [_], _, _, _ => by simp
  | a :: b :: t, hP, himp, hch => by
    rw [List.chain'_cons] at hch ⊢
    exact ⟨himp a b (hP a (by simp)) (hP b (by simp)) hch.1,
      chain'_of_mem_imp P (fun x hx => hP x (List.mem_cons_of_mem a hx)) himp hch.2⟩

theorem chain'_colexCombos : ∀ (n k : Nat),
    List.Chain' (fun s t => combSucc 0 s = t) (colexCombos n k)
  | _, 0 => by simp [colexCombos]
  | 0, _ + 1 => by simp [colexCombos]
  | n + 1, k + 1 => by
    simp only [colexCombos]
    rw [List.chain'_append]
    refine ⟨chain'_colexCombos n (k + 1), ?_, ?_⟩
    · cases k with
      | zero => simp [colexCombos]
      | succ j =>
        rw [List.chain'_map]
        refine chain'_of_mem_imp (fun s => IsCombo n s ∧ s.length = j + 1)
          (fun x hx => (mem_colexCombos n (j + 1) x).mp hx) ?_
          (chain'_colexCombos n (j + 1))
        intro a b hPa hPb hab
        have hane : a ≠ [] := by
          rcases hPa with ⟨_, hlen⟩
          intro hc; subst hc; simp at hlen
        have hblt : ∀ x ∈ combSucc 0 a, x < n := by
          rw [hab]; exact fun x hx => hPb.1.2 x hx
        rw [combSucc_append_last n a 0 hane hblt, hab]
    · intro xlast hx1 yhead hy1
      by_cases hkn : k + 1 ≤ n
      · rw [getLast?_colexCombos n (k + 1) hkn] at hx1
        rw [List.head?_map, head?_colexCombos n k (by omega)] at hy1
        simp only [Option.mem_def, Option.map_some', Option.some.injEq] at hx1 hy1
        subst hx1
        subst hy1
        rw [combSucc_range' (k + 1) 0 (n - (k + 1)) (by omega)]
        have h1 : n - (k + 1) + (k + 1) = n := by omega
        rw [h1, List.range_eq_range']
        simp
      · rw [colexCombos_eq_nil n (k + 1) (by omega)] at hx1
        simp at hx1

theorem combinations_step_stop (n m : Nat) (s : List Nat) (fuel : Nat)
    (h1 : (combSucc 0 s).getLastD 0 = n) (h2 : ¬(combSucc 0 s).length < m) :
    combinations n m s (fuel + 1) = [s] := by
  simp only [combinations]
  rw [if_pos h1, if_neg h2]

theorem combinations_step_grow (n m : Nat) (s : List Nat) (fuel : Nat)
    (h1 : (combSucc 0 s).getLastD 0 = n) (h2 : (combSucc 0 s).length < m) :
    combinations n m s (fuel + 1) =
      s :: combinations n m (List.range ((combSucc 0 s).length + 1)) fuel := by
  simp only [combinations]
  rw [if_pos h1, if_pos h2]

theorem combinations_step_next (n m : Nat) (s : List Nat) (fuel : Nat)
    (h1 : ¬(combSucc 0 s).getLastD 0 = n) :
    combinations n m s (fuel + 1) = s :: combinations n m (combSucc 0 s) fuel := by
  simp only [combinations]
  rw [if_neg h1]

theorem getLastD_eq_getLast {α : Type} {l : List α} (h : l ≠ []) (d : α) :
    l.getLastD d = l.getLast h := by
  rw [List.getLastD_eq_getLast?, List.getLast?_eq_getLast l h]
  rfl

theorem combinations_chunk (n m : Nat) :
    ∀ (l : List (List Nat)) (k fuel : Nat), 1 ≤ k →
      (∀ x ∈ l, IsCombo n x ∧ x.length = k) →
      List.Chain' (fun s t => combSucc 0 s = t) l →
      combSucc 0 (l.getLastD []) = List.range (k - 1) ++ [n] →
      l ≠ [] →
      combinations n m l.headI (l.length + fuel) =
        l ++ (if k < m then combinations n m (List.range (k + 1)) fuel else [])
  | [], _, _, _, _, _, _, hne => absurd rfl hne
  | [a], k, fuel, hk, _, _, hlast, _ => by
    have hsucc : combSucc 0 a = List.range (k - 1) ++ [n] := by simpa using hlast
    have hlastd : (combSucc 0 a).getLastD 0 = n := by
      rw [hsucc]; exact List.getLastD_concat _ _ _
    have hlens2 : (combSucc 0 a).length = k := by
      rw [hsucc]; simp; omega
    have h1f : ([a] : List (List Nat)).length + fuel = fuel + 1 := by simp; omega
    rw [h1f]
    show combinations n m a (fuel + 1) =
      [a] ++ (if k < m then combinations n m (List.range (k + 1)) fuel else [])
    by_cases hkm : k < m
    · rw [combinations_step_grow n m a fuel hlastd (by rw [hlens2]; exact hkm)]
      rw [hlens2, if_pos hkm]
      rfl
    · rw [combinations_step_stop n m a fuel hlastd (by rw [hlens2]; exact hkm)]
      rw [if_neg hkm]
      rfl
  | a :: b :: t, k, fuel, hk, hmem, hch, hlast, _ => by
    rw [List.chain'_cons] at hch
    have hb := hmem b (by simp)
    have hbne : b ≠ [] := by
      rcases hb with ⟨_, hlen⟩
      intro hc; subst hc; simp at hlen; omega
    have hblast_ne : ¬(combSucc 0 a).getLastD 0 = n := by
      rw [hch.1, getLastD_eq_getLast hbne 0]
      have := hb.1.2 (b.getLast hbne) (List.getLast_mem hbne)
      omega
    have hlenf : (a :: b :: t).length + fuel = ((b :: t).length + fuel) + 1 := by
      simp; omega
    rw [hlenf]
    show combinations n m a (((b :: t).length + fuel) + 1) = _
    rw [combinations_step_next n m a _ hblast_ne, hch.1]
    have hlast2 : combSucc 0 ((b :: t).getLastD []) = List.range (k - 1) ++ [n] := by
      rw [List.getLastD_eq_getLast?] at hlast ⊢
      rwa [List.getLast?_cons_cons] at hlast
    have hih := combinations_chunk n m (b :: t) k fuel hk
      (fun x hx => hmem x (List.mem_cons_of_mem a hx)) hch.2 hlast2 (by simp)
    rw [show (b :: t).headI = b from rfl] at hih
    rw [hih]
    rfl

theorem colexCombos_getLastD (n k : Nat) (hkn : k ≤ n) :
    (colexCombos n k).getLastD [] = List.range' (n - k) k := by
  rw [List.getLastD_eq_getLast?, getLast?_colexCombos n k hkn]
  rfl

theorem colexCombos_succ_last (n k : Nat) (hk : 1 ≤ k) (hkn : k ≤ n) :
    combSucc 0 ((colexCombos n k).getLastD []) = List.range (k - 1) ++ [n] := by
  rw [colexCombos_getLastD n k hkn, combSucc_range' k 0 (n - k) hk]
  have h2 : n - k + k = n := by omega
  rw [h2, ← List.range_eq_range']

theorem combinations_eq_skeletons (n m : Nat) (hmn : m ≤ n) :
    ∀ (j k fuel : Nat), k + j = m → 1 ≤ k →
      combinations n m (List.range k)
        (((List.range' k (j + 1)).flatMap (colexCombos n)).length + fuel) =
        (List.range' k (j + 1)).flatMap (colexCombos n) := by
  intro j
  induction j with
  | zero =>
    intro k fuel hkm hk1
    have hkm' : k = m := by omega
    subst hkm'
    have hkn : k ≤ n := hmn
    have h1 : List.range' k 1 = [k] := rfl
    rw [h1]
    simp only [List.flatMap_cons, List.flatMap_nil, List.append_nil]
    have hhead : (colexCombos n k).headI = List.range k :=
      headI_of_ne_nil (head?_colexCombos n k hkn)
    have hchunk := combinations_chunk n k (colexCombos n k) k fuel hk1
      (fun x hx => (mem_colexCombos n k x).mp hx)
      (chain'_colexCombos n k) (colexCombos_succ_last n k hk1 hkn)
      (colexCombos_ne_nil n k hkn)
    rw [hhead] at hchunk
    rw [hchunk, if_neg (lt_irrefl k)]
    simp
  | succ j ih =>
    intro k fuel hkm hk1
    have hkn : k ≤ n := by omega
    have hkm' : k < m := by omega
    rw [List.range'_succ]
    simp only [List.flatMap_cons, List.length_append]
    have hhead : (colexCombos n k).headI = List.range k :=
      headI_of_ne_nil (head?_colexCombos n k hkn)
    have harith :
        (colexCombos n k).length +
            ((List.range' (k + 1) (j + 1)).flatMap (colexCombos n)).length + fuel =
          (colexCombos n k).length +
            (((List.range' (k + 1) (j + 1)).flatMap (colexCombos n)).length + fuel) := by
      omega
    rw [harith]
    have hchunk := combinations_chunk n m (colexCombos n k) k
      (((List.range' (k + 1) (j + 1)).flatMap (colexCombos n)).length + fuel) hk1
      (fun x hx => (mem_colexCombos n k x).mp hx)
      (chain'_colexCombos n k) (colexCombos_succ_last n k hk1 hkn)
      (colexCombos_ne_nil n k hkn)
    rw [hhead] at hchunk
    rw [hchunk, if_pos hkm']
    congr 1
    exact ih (k + 1) fuel (by omega) (by omega)

theorem list_range'_map_sum (f : Nat → Nat) :
    ∀ (len a : Nat),
      ((List.range' a len).map f).sum = ∑ i ∈ Finset.range len, f (a + i) := by
  intro len
  induction len with
  | zero => intro a; simp
  | succ j ih =>
    intro a
    rw [List.range'_succ]
    simp only [List.map_cons, List.sum_cons]
    rw [ih (a + 1), Finset.sum_range_succ']
    have : ∀ i ∈ Finset.range j, f (a + 1 + i) = f (a + (i + 1)) := by
      intro i _
      congr 1
      omega
    rw [Finset.sum_congr rfl this]
    simp [Nat.add_comm]

theorem length_skeletonList_le (n m : Nat) (hmn : m ≤ n) :
    (skeletonList n m).length ≤ genFuel n := by
  unfold skeletonList genFuel
  rw [List.length_flatMap]
  have h1 : List.map (List.length ∘ colexCombos n) (List.range' 3 (m - 2)) =
      (List.range' 3 (m - 2)).map (fun k => Nat.choose n k) := by
    apply List.map_congr_left
    intro k _
    exact length_colexCombos n k
  rw [h1, list_range'_map_sum]
  have h2 : ∑ i ∈ Finset.range (m - 2), n.choose (3 + i) =
      ∑ k ∈ Finset.Ico 3 (3 + (m - 2)), n.choose k := by
    rw [Finset.sum_Ico_eq_sum_range]
    simp
  rw [h2]
  calc ∑ k ∈ Finset.Ico 3 (3 + (m - 2)), n.choose k
      ≤ ∑ k ∈ Finset.range (n + 1), n.choose k := by
        apply Finset.sum_le_sum_of_subset
        intro x hx
        simp only [Finset.mem_Ico, Finset.mem_range] at hx ⊢
        omega
    _ = 2 ^ n := Nat.sum_range_choose n

theorem combinations_full (n m : Nat) (h3 : 3 ≤ m) (hmn : m ≤ n) (fuel : Nat)
    (hfuel : (skeletonList n m).length ≤ fuel) :
    combinations n m (List.range 3) fuel = skeletonList n m := by
  have hdecomp : fuel = (skeletonList n m).length + (fuel - (skeletonList n m).length) := by
    omega
  rw [hdecomp]
  show combinations n m (List.range 3)
      ((skeletonList n m).length + (fuel - (skeletonList n m).length)) = skeletonList n m
  unfold skeletonList
  have hm2 : m - 2 = (m - 3) + 1 := by omega
  rw [hm2]
  exact combinations_eq_skeletons n m hmn (m - 3) 3 _ (by omega) (by omega)

/-- The skeleton stream of a complete fresh run is exactly all combinations of
sizes `3 .. m`, size by size, in colexicographic order. -/
theorem freshStates_eq_blocks (n m : Nat) (h3 : 3 ≤ m) (hmn : m ≤ n) :
    freshStates n m = (skeletonList n m).flatMap stateBlock := by
  unfold freshStates iterate_states
  simp only [Option.getD_none]
  rw [combinations_full n m h3 hmn (genFuel n) (length_skeletonList_le n m hmn)]

/-! ## Permutation blocks -/

theorem pickEach_length {α : Type} : ∀ (l : List α), (pickEach l).length = l.length
  | [] => rfl
  | x :: xs => by simp [pickEach, pickEach_length xs]

theorem pickEach_mem {α : Type} :
    ∀ {l : List α} {p : α × List α}, p ∈ pickEach l →
      p.2.length + 1 = l.length ∧ (p.1 :: p.2).Perm l
  | [], p, hp => by simp [pickEach] at hp
  | x :: xs, p, hp => by
    simp only [pickEach, List.mem_cons, List.mem_map] at hp
    rcases hp with rfl | ⟨q, hq, rfl⟩
    · exact ⟨by simp, List.Perm.refl _⟩
    · have hih := pickEach_mem hq
      refine ⟨by simp only [List.length_cons]; rw [hih.1], ?_⟩
      exact (List.Perm.swap x q.1 q.2).trans (hih.2.cons x)

theorem length_lexPermsAux {α : Type} :
    ∀ (k : Nat) (l : List α), l.length = k →
      (lexPermsAux k l).length = Nat.factorial k
  | 0, _, _ => by simp [lexPermsAux]
  | k + 1, l, hlen => by
    simp only [lexPermsAux]
    rw [List.length_flatMap]
    have hmap : List.map (List.length ∘ fun p => (lexPermsAux k p.2).map (p.1 :: ·))
        (pickEach l) = List.map (fun _ => Nat.factorial k) (pickEach l) := by
      apply List.map_congr_left
      intro p hp
      simp only [Function.comp_apply, List.length_map]
      exact length_lexPermsAux k p.2 (by have := (pickEach_mem hp).1; omega)
    rw [hmap, List.map_const', List.sum_replicate, pickEach_length, hlen]
    simp [Nat.factorial_succ]

theorem mem_lexPermsAux_perm {α : Type} :
    ∀ (k : Nat) (l p : List α), l.length = k → p ∈ lexPermsAux k l → p.Perm l
  | 0, l, p, hlen, hp => by
    have hl : l = [] := List.eq_nil_of_length_eq_zero hlen
    subst hl
    simp only [lexPermsAux, List.mem_singleton] at hp
    subst hp
    exact List.Perm.refl _
  | k + 1, l, p, hlen, hp => by
    simp only [lexPermsAux, List.mem_flatMap, List.mem_map] at hp
    rcases hp with ⟨q, hq, r, hr, rfl⟩
    have hq2 := pickEach_mem hq
    have hrperm := mem_lexPermsAux_perm k q.2 r (by omega) hr
    exact (hrperm.cons q.1).trans hq2.2

theorem mem_lexPerms_perm {α : Type} {l p : List α} (hp : p ∈ lexPerms l) :
    p.Perm l :=
  mem_lexPermsAux_perm l.length l p rfl hp

theorem length_lexPerms {α : Type} (l : List α) :
    (lexPerms l).length = Nat.factorial l.length :=
  length_lexPermsAux l.length l rfl

theorem length_stateBlock (c : List Nat) :
    (stateBlock c).length = Nat.factorial (c.length - 1) / 2 := by
  unfold stateBlock
  rw [List.length_map, List.length_take, length_lexPerms, List.length_tail]
  exact min_eq_left (Nat.div_le_self _ _)

theorem mem_stateBlock {c s : List Nat} (hs : s ∈ stateBlock c) :
    ∃ p, s = c.headI :: p ∧ p.Perm c.tail := by
  unfold stateBlock at hs
  rcases List.mem_map.mp hs with ⟨p, hp, rfl⟩
  exact ⟨p, rfl, mem_lexPerms_perm (List.mem_of_mem_take hp)⟩

theorem stateBlock_three (a b c : Nat) : stateBlock [a, b, c] = [[a, b, c]] := by
  simp [stateBlock, lexPerms, lexPermsAux, pickEach, Nat.factorial]

theorem stateBlock_four (a b c d : Nat) :
    stateBlock [a, b, c, d] =
      [[a, b, c, d], [a, b, d, c], [a, c, b, d]] := by
  simp [stateBlock, lexPerms, lexPermsAux, pickEach, Nat.factorial]

/-! ## The skeleton list of a fresh run -/

theorem mem_skeletonList {n m : Nat} {c : List Nat} :
    c ∈ skeletonList n m ↔ IsCombo n c ∧ 3 ≤ c.length ∧ c.length ≤ m := by
  unfold skeletonList
  rw [List.mem_flatMap]
  constructor
  · rintro ⟨k, hk, hc⟩
    rw [List.mem_range'_1] at hk
    rcases (mem_colexCombos n k c).mp hc with ⟨hcombo, hlen⟩
    exact ⟨hcombo, by omega, by omega⟩
  · rintro ⟨hcombo, h3, hm⟩
    exact ⟨c.length, List.mem_range'_1.mpr ⟨h3, by omega⟩,
      (mem_colexCombos n c.length c).mpr ⟨hcombo, rfl⟩⟩

theorem nodup_flatMap_disjoint {α β : Type} (f : α → List β) :
    ∀ (l : List α), (∀ x ∈ l, (f x).Nodup) →
      List.Pairwise (fun a b => ∀ y ∈ f a, y ∉ f b) l → (l.flatMap f).Nodup
  | [], _, _ => by simp
  | a :: t, hn, hp => by
    simp only [List.flatMap_cons]
    rw [List.nodup_append]
    rw [List.pairwise_cons] at hp
    refine ⟨hn a (by simp),
      nodup_flatMap_disjoint f t (fun x hx => hn x (by simp [hx])) hp.2, ?_⟩
    intro y hy1 hy2
    rcases List.mem_flatMap.mp hy2 with ⟨b, hb, hyb⟩
    exact hp.1 b hb y hy1 hyb

theorem nodup_skeletonList (n m : Nat) : (skeletonList n m).Nodup := by
  unfold skeletonList
  apply nodup_flatMap_disjoint
  · intro k _
    exact nodup_colexCombos n k
  · have hpl : List.Pairwise (· < ·) (List.range' 3 (m - 2)) :=
      List.pairwise_lt_range' 3 (m - 2)
    refine hpl.imp ?_
    intro a b hab y hya hyb
    rcases (mem_colexCombos n a y).mp hya with ⟨_, hla⟩
    rcases (mem_colexCombos n b y).mp hyb with ⟨_, hlb⟩
    omega

theorem count_eq_one_of_nodup_mem {α : Type} [BEq α] [LawfulBEq α] {a : α}
    {l : List α} (hn : l.Nodup) (ha : a ∈ l) : l.count a = 1 := by
  induction l with
  | nil => simp at ha
  | cons b t ih =>
    rw [List.nodup_cons] at hn
    rcases List.mem_cons.mp ha with rfl | hat
    · rw [List.count_cons_self]
      have h0 : t.count a = 0 := List.count_eq_zero.mpr hn.1
      omega
    · have hab : a ≠ b := by
        intro hc
        exact hn.1 (hc ▸ hat)
      rw [List.count_cons_of_ne hab, ih hn.2 hat]

theorem count_skeletonList (n m : Nat) (c : List Nat)
    (hc : IsCombo n c) (h3 : 3 ≤ c.length) (hm : c.length ≤ m) :
    (skeletonList n m).count c = 1 :=
  count_eq_one_of_nodup_mem (nodup_skeletonList n m)
    (mem_skeletonList.mpr ⟨hc, h3, hm⟩)

/-! ## Counting emitted states -/

theorem filter_flatMap {α β : Type} (l : List α) (f : α → List β) (p : β → Bool) :
    (l.flatMap f).filter p = l.flatMap (fun x => (f x).filter p) := by
  induction l with
  | nil => rfl
  | cons a t ih => simp [List.flatMap_cons, List.filter_append, ih]

theorem count_flatMap {α β : Type} [BEq β] (l : List α) (f : α → List β) (b : β) :
    (l.flatMap f).count b = (l.map (fun x => (f x).count b)).sum := by
  induction l with
  | nil => rfl
  | cons a t ih => simp [List.flatMap_cons, List.count_append, ih]

theorem sum_map_single {α : Type} [BEq α] [LawfulBEq α] :
    ∀ (l : List α) (g : α → Nat) (c : α), l.count c = 1 →
      (∀ x ∈ l, x ≠ c → g x = 0) → (l.map g).sum = g c
  | [], _, c, hcount, _ => by simp at hcount
  | a :: t, g, c, hcount, hzero => by
    by_cases hac : a = c
    · subst hac
      have htc : t.count a = 0 := by
        rw [List.count_cons_self] at hcount
        omega
      have hzt : ∀ x ∈ t, g x = 0 := by
        intro x hx
        by_cases hxa : x = a
        · subst hxa
          exact absurd hx (List.count_eq_zero.mp htc)
        · exact hzero x (by simp [hx]) hxa
      simp only [List.map_cons, List.sum_cons]
      have hsum : (t.map g).sum = 0 := by
        apply List.sum_eq_zero
        intro x hx
        rcases List.mem_map.mp hx with ⟨y, hy, rfl⟩
        exact hzt y hy
      omega
    · have hga : g a = 0 := hzero a (by simp) hac
      have hcount' : t.count c = 1 := by
        rwa [List.count_cons_of_ne (fun hc => hac hc.symm)] at hcount
      simp only [List.map_cons, List.sum_cons, hga]
      rw [sum_map_single t g c hcount'
        (fun x hx hxc => hzero x (by simp [hx]) hxc)]
      omega

theorem perm_pair {α : Type} {a b : α} {l : List α} (h : l.Perm [a, b]) :
    l = [a, b] ∨ l = [b, a] := by
  have hlen : l.length = 2 := by simpa using h.length_eq
  rcases List.length_eq_two.mp hlen with ⟨x, y, rfl⟩
  have hx : x = a ∨ x = b := by
    have hmem : x ∈ [a, b] := h.subset (by simp)
    simpa using hmem
  rcases hx with rfl | rfl
  · left
    have h2 := (List.perm_cons x).mp h
    have : y = b := by simpa using List.perm_singleton.mp h2
    rw [this]
  · right
    have h3 : ([x, y] : List α).Perm [x, a] :=
      h.trans (List.Perm.swap x a [])
    have h2 := (List.perm_cons x).mp h3
    have : y = a := by simpa using List.perm_singleton.mp h2
    rw [this]

theorem perm_three {α : Type} {a b c : α} {l : List α} (h : l.Perm [a, b, c]) :
    l = [a, b, c] ∨ l = [a, c, b] ∨ l = [b, a, c] ∨ l = [b, c, a] ∨
      l = [c, a, b] ∨ l = [c, b, a] := by
  have hlen : l.length = 3 := by simpa using h.length_eq
  rcases List.length_eq_three.mp hlen with ⟨x, y, z, rfl⟩
  have hx : x = a ∨ x = b ∨ x = c := by
    have hmem : x ∈ [a, b, c] := h.subset (by simp)
    simpa using hmem
  rcases hx with rfl | rfl | rfl
  · have h2 := (List.perm_cons x).mp h
    rcases perm_pair h2 with h3 | h3
    · obtain ⟨rfl, rfl⟩ : y = b ∧ z = c := by simpa using h3
      exact Or.inl rfl
    · obtain ⟨rfl, rfl⟩ : y = c ∧ z = b := by simpa using h3
      exact Or.inr (Or.inl rfl)
  · have hswap : ([a, x, c] : List α).Perm [x, a, c] := List.Perm.swap x a [c]
    have h2 := (List.perm_cons x).mp (h.trans hswap)
    rcases perm_pair h2 with h3 | h3
    · obtain ⟨rfl, rfl⟩ : y = a ∧ z = c := by simpa using h3
      exact Or.inr (Or.inr (Or.inl rfl))
    · obtain ⟨rfl, rfl⟩ : y = c ∧ z = a := by simpa using h3
      exact Or.inr (Or.inr (Or.inr (Or.inl rfl)))
  · have hswap1 : ([a, b, x] : List α).Perm [a, x, b] :=
      (List.Perm.swap x b []).cons a
    have hswap2 : ([a, x, b] : List α).Perm [x, a, b] := List.Perm.swap x a [b]
    have h2 := (List.perm_cons x).mp (h.trans (hswap1.trans hswap2))
    rcases perm_pair h2 with h3 | h3
    · obtain ⟨rfl, rfl⟩ : y = a ∧ z = b := by simpa using h3
      exact Or.inr (Or.inr (Or.inr (Or.inr (Or.inl rfl))))
    · obtain ⟨rfl, rfl⟩ : y = b ∧ z = a := by simpa using h3
      exact Or.inr (Or.inr (Or.inr (Or.inr (Or.inr rfl))))

theorem perm_sorted_eq {c c' : List Nat} (hperm : c.Perm c')
    (hc : List.Pairwise (· < ·) c) (hc' : List.Pairwise (· < ·) c') : c = c' := by
  haveI : IsAntisymm Nat (· < ·) := ⟨fun a b h1 h2 => absurd h2 (Nat.lt_asymm h1)⟩
  exact List.eq_of_perm_of_sorted hperm hc hc'

theorem mem_stateBlock_perm {c s : List Nat} (hc : c ≠ []) (hs : s ∈ stateBlock c) :
    s.Perm c := by
  rcases mem_stateBlock hs with ⟨p, rfl, hperm⟩
  have := hperm.cons c.headI
  rwa [cons_headI_tail hc] at this

theorem count_freshStates_eq_block (n m : Nat) (h3 : 3 ≤ m) (hmn : m ≤ n)
    (c : List Nat) (hc : IsCombo n c) (h3c : 3 ≤ c.length) (hcm : c.length ≤ m)
    (t : List Nat) (ht : t.Perm c) :
    (freshStates n m).count t = (stateBlock c).count t := by
  rw [freshStates_eq_blocks n m h3 hmn, count_flatMap]
  apply sum_map_single
  · exact count_skeletonList n m c hc h3c hcm
  · intro c' hc' hne
    rw [List.count_eq_zero]
    intro htmem
    have hc'p := mem_skeletonList.mp hc'
    have hc'ne : c' ≠ [] := by
      rcases hc'p with ⟨_, h3', _⟩
      intro hcc; subst hcc; simp at h3'
    have htc' : t.Perm c' := mem_stateBlock_perm hc'ne htmem
    exact hne (perm_sorted_eq (htc'.symm.trans ht) hc'p.1.1 hc.1)

theorem length_eq_four {α : Type} {l : List α} (h : l.length = 4) :
    ∃ a b c d, l = [a, b, c, d] := by
  rcases l with _ | ⟨a, t⟩
  · simp at h
  · have ht : t.length = 3 := by simpa using h
    rcases List.length_eq_three.mp ht with ⟨b, c, d, rfl⟩
    exact ⟨a, b, c, d, rfl⟩

theorem count_class_block_three (a b d : Nat) (_hab : a < b) (hbd : b < d)
    (p : List Nat) (hp : p.Perm [b, d]) :
    (stateBlock [a, b, d]).count (a :: p) +
      (stateBlock [a, b, d]).count (a :: p.reverse) = 1 := by
  rw [stateBlock_three]
  rcases perm_pair hp with rfl | rfl <;>
    simp only [List.reverse_cons, List.reverse_nil, List.nil_append,
      List.singleton_append, List.count_cons, List.count_nil, beq_iff_eq,
      List.cons.injEq] <;>
    split_ifs <;> omega

theorem count_class_block_four (a b d e : Nat) (_hab : a < b) (hbd : b < d)
    (hde : d < e) (p : List Nat) (hp : p.Perm [b, d, e]) :
    (stateBlock [a, b, d, e]).count (a :: p) +
      (stateBlock [a, b, d, e]).count (a :: p.reverse) = 1 := by
  rw [stateBlock_four]
  rcases perm_three hp with rfl | rfl | rfl | rfl | rfl | rfl <;>
    simp only [List.reverse_cons, List.reverse_nil, List.nil_append,
      List.singleton_append, List.cons_append, List.count_cons, List.count_nil,
      beq_iff_eq, List.cons.injEq] <;>
    split_ifs <;> omega

theorem count_class (n m : Nat) (h3 : 3 ≤ m) (hmn : m ≤ n)
    (c : List Nat) (hc : IsCombo n c) (h3c : 3 ≤ c.length) (hcm : c.length ≤ m)
    (hc4 : c.length ≤ 4)
    (p : List Nat) (hp : p.Perm c.tail) :
    (freshStates n m).count (c.headI :: p) +
      (freshStates n m).count (c.headI :: p.reverse) = 1 := by
  have hcne : c ≠ [] := by intro hcc; subst hcc; simp at h3c
  have ht1 : (c.headI :: p).Perm c := by
    have hh := hp.cons c.headI
    rwa [cons_headI_tail hcne] at hh
  have ht2 : (c.headI :: p.reverse).Perm c := by
    have hrp : p.reverse.Perm c.tail := p.reverse_perm.trans hp
    have hh := hrp.cons c.headI
    rwa [cons_headI_tail hcne] at hh
  rw [count_freshStates_eq_block n m h3 hmn c hc h3c hcm _ ht1,
    count_freshStates_eq_block n m h3 hmn c hc h3c hcm _ ht2]
  have hlen : c.length = 3 ∨ c.length = 4 := by omega
  rcases hlen with h | h
  · rcases List.length_eq_three.mp h with ⟨a, b, d, rfl⟩
    have h' := hc.1
    rw [List.pairwise_cons] at h'
    have hab : a < b := h'.1 b (by simp)
    have h'' := h'.2
    rw [List.pairwise_cons] at h''
    have hbd : b < d := h''.1 d (by simp)
    exact count_class_block_three a b d hab hbd p hp
  · rcases length_eq_four h with ⟨a, b, d, e, rfl⟩
    have h' := hc.1
    rw [List.pairwise_cons] at h'
    have hab : a < b := h'.1 b (by simp)
    have h'' := h'.2
    rw [List.pairwise_cons] at h''
    have hbd : b < d := h''.1 d (by simp)
    have h''' := h''.2
    rw [List.pairwise_cons] at h'''
    have hde : d < e := h'''.1 e (by simp)
    exact count_class_block_four a b d e hab hbd hde p hp

theorem filter_stateBlock_count (n m : Nat) (h3 : 3 ≤ m) (hmn : m ≤ n)
    (c : List Nat) (hc : IsCombo n c) (h3c : 3 ≤ c.length) (hcm : c.length ≤ m) :
    ((freshStates n m).filter
        (fun s => s.headI == c.headI && decide (s.Perm c))).length =
      Nat.factorial (c.length - 1) / 2 := by
  have hcne : c ≠ [] := by intro hcc; subst hcc; simp at h3c
  rw [freshStates_eq_blocks n m h3 hmn, filter_flatMap, List.length_flatMap]
  have hmapeq : List.map
      (List.length ∘ fun x => (stateBlock x).filter
        (fun s => s.headI == c.headI && decide (s.Perm c)))
      (skeletonList n m) =
      List.map (fun x => ((stateBlock x).filter
        (fun s => s.headI == c.headI && decide (s.Perm c))).length)
      (skeletonList n m) := by
    apply List.map_congr_left
    intro x _
    rfl
  rw [hmapeq]
  rw [sum_map_single (skeletonList n m) _ c (count_skeletonList n m c hc h3c hcm) ?_]
  · rw [List.filter_eq_self.mpr ?_, length_stateBlock]
    intro s hs
    rcases mem_stateBlock hs with ⟨p, rfl, hperm⟩
    simp only [Bool.and_eq_true, beq_iff_eq, decide_eq_true_eq, List.headI_cons,
      eq_self_iff_true, true_and]
    have hh := hperm.cons c.headI
    rwa [cons_headI_tail hcne] at hh
  · intro c' hc' hne
    rw [List.length_eq_zero]
    rw [List.filter_eq_nil_iff]
    intro s hs hpred
    simp only [Bool.and_eq_true, beq_iff_eq, decide_eq_true_eq] at hpred
    have hc'p := mem_skeletonList.mp hc'
    have hc'ne : c' ≠ [] := by
      rcases hc'p with ⟨_, h3', _⟩
      intro hcc; subst hcc; simp at h3'
    have hsc' : s.Perm c' := mem_stateBlock_perm hc'ne hs
    exact hne (perm_sorted_eq (hsc'.symm.trans hpred.2) hc'p.1.1 hc.1)

theorem mem_freshStates (n m : Nat) (h3 : 3 ≤ m) (hmn : m ≤ n) (s : List Nat) :
    s ∈ freshStates n m ↔
      ∃ c, IsCombo n c ∧ 3 ≤ c.length ∧ c.length ≤ m ∧ s ∈ stateBlock c := by
  rw [freshStates_eq_blocks n m h3 hmn, List.mem_flatMap]
  constructor
  · rintro ⟨c, hcmem, hs⟩
    rcases mem_skeletonList.mp hcmem with ⟨h1, h2, h3'⟩
    exact ⟨c, h1, h2, h3', hs⟩
  · rintro ⟨c, h1, h2, h3', hs⟩
    exact ⟨c, mem_skeletonList.mpr ⟨h1, h2, h3'⟩, hs⟩

/-! ## Resume behaviour -/

theorem stateBlock_of_length_three {c : List Nat} (h : c.length = 3) :
    stateBlock c = [c] := by
  rcases List.length_eq_three.mp h with ⟨a, b, d, rfl⟩
  exact stateBlock_three a b d

theorem flatMap_stateBlock_id {l : List (List Nat)} (h : ∀ c ∈ l, c.length = 3) :
    l.flatMap stateBlock = l := by
  induction l with
  | nil => rfl
  | cons a t ih =>
    simp only [List.flatMap_cons]
    rw [stateBlock_of_length_three (h a (by simp)),
      ih (fun c hc => h c (by simp [hc]))]
    rfl

theorem freshStates_three (n : Nat) (hn : 3 ≤ n) :
    freshStates n 3 = colexCombos n 3 := by
  rw [freshStates_eq_blocks n 3 le_rfl hn]
  unfold skeletonList
  have h1 : List.range' 3 (3 - 2) = [3] := rfl
  rw [h1]
  simp only [List.flatMap_cons, List.flatMap_nil, List.append_nil]
  apply flatMap_stateBlock_id
  intro c hc
  exact ((mem_colexCombos n 3 c).mp hc).2

theorem choose_le_two_pow (n k : Nat) (h : k ≤ n) : n.choose k ≤ 2 ^ n := by
  have hmem : k ∈ Finset.range (n + 1) := Finset.mem_range.mpr (by omega)
  calc n.choose k ≤ ∑ i ∈ Finset.range (n + 1), n.choose i :=
        Finset.single_le_sum (fun i _ => Nat.zero_le _) hmem
    _ = 2 ^ n := Nat.sum_range_choose n

/-! ## Claim theorems: the enumerator -/

/-- Claim C1 (counterexample): as stated the claim fails.  At `n = 5`,
`m = 5` the fresh enumeration emits both `(0,1,3,4,2)` and its
reversal-equivalent counterpart `(0,2,4,3,1)`, so this rotation-anchored,
reversal-deduplicated ordered subset is emitted twice, not once. -/
theorem claim_C1_counterexample :
    IsCombo 5 [0, 1, 2, 3, 4] ∧
    [1, 3, 4, 2].Perm ([0, 1, 2, 3, 4].tail) ∧
    revCounterpart [0, 1, 3, 4, 2] = [0, 2, 4, 3, 1] ∧
    (freshStates 5 5).count [0, 1, 3, 4, 2] +
      (freshStates 5 5).count (revCounterpart [0, 1, 3, 4, 2]) = 2 := by
  decide

/-- Claim C1 (amended): for every candidate count `n` and maximum size
`3 ≤ m ≤ n`, a fresh enumeration emits, for every size-`k` skeleton,
exactly `(k-1)!/2` states anchored at the skeleton's first element, each of
the form `(c0,)` followed by a permutation of the remaining elements; every
rotation-anchored, reversal-deduplicated ordered subset over a skeleton of
size at most `4` is emitted exactly once (for sizes `≥ 5` the
first-half-of-permutations trick no longer deduplicates reversals); and for
`n = 4`, `m = 3` exactly `4` states are emitted. -/
theorem claim_C1_amended (n m : Nat) (h3 : 3 ≤ m) (hmn : m ≤ n) :
    (∀ c, IsCombo n c → 3 ≤ c.length → c.length ≤ m →
        ((freshStates n m).filter
            (fun s => s.headI == c.headI && decide (s.Perm c))).length =
          Nat.factorial (c.length - 1) / 2) ∧
    (∀ s ∈ freshStates n m, ∃ c, IsCombo n c ∧ 3 ≤ c.length ∧ c.length ≤ m ∧
        ∃ p, s = c.headI :: p ∧ p.Perm c.tail) ∧
    (∀ c, IsCombo n c → 3 ≤ c.length → c.length ≤ m → c.length ≤ 4 →
        ∀ p, p.Perm c.tail →
          (freshStates n m).count (c.headI :: p) +
            (freshStates n m).count (revCounterpart (c.headI :: p)) = 1) ∧
    (freshStates 4 3).length = 4 := by
  refine ⟨?_, ?_, ?_, by decide⟩
  · intro c hc h3c hcm
    exact filter_stateBlock_count n m h3 hmn c hc h3c hcm
  · intro s hs
    rcases (mem_freshStates n m h3 hmn s).mp hs with ⟨c, h1, h2, h3', hblk⟩
    rcases mem_stateBlock hblk with ⟨p, rfl, hperm⟩
    exact ⟨c, h1, h2, h3', p, rfl, hperm⟩
  · intro c hc h3c hcm hc4 p hp
    have hrw : revCounterpart (c.headI :: p) = c.headI :: p.reverse := rfl
    rw [hrw]
    exact count_class n m h3 hmn c hc h3c hcm hc4 p hp

/-- Witness for the amended claim C1 at the concrete instance `n = 4`,
`m = 3`. -/
theorem claim_C1_witness :
    (freshStates 4 3).length = 4 ∧
    (freshStates 4 3).count [0, 1, 2] +
      (freshStates 4 3).count (revCounterpart [0, 1, 2]) = 1 :=
  ⟨(claim_C1_amended 4 3 (by decide) (by decide)).2.2.2,
   (claim_C1_amended 4 3 (by decide) (by decide)).2.2.1
     [0, 1, 2] (by decide) (by decide) (by decide) (by decide)
     [1, 2] (by decide)⟩

/-- Claim C2 (counterexample): as stated the claim fails.  Resuming with
`m = 3` from the saved state `(0,1,3)` re-emits `(0,1,3)` itself, so the
resumed sequence is not strictly after the saved state; and resuming with
`m = 4` from `(0,1,3,2)` emits `(0,3,1,2)`, a state the fresh enumeration
never emits, so resumed and fresh leaderboards differ. -/
theorem claim_C2_counterexample :
    resumeStates 4 3 [0, 1, 3] ≠ [[0, 2, 3], [1, 2, 3]] ∧
    (resumeStates 4 3 [0, 1, 3]).headI = [0, 1, 3] ∧
    [0, 3, 1, 2] ∈ resumeStates 4 4 [0, 1, 3, 2] ∧
    [0, 3, 1, 2] ∉ freshStates 4 4 := by
  decide

/-- Claim C2 (amended): for maximum subset size `3`, resuming from any
emitted state `s` produces exactly the suffix of the fresh enumeration
starting at — and including — `s`; the saved state is re-emitted first, so
the leaderboards coincide exactly when the driver treats the saved state as
not yet evaluated.  (For maximum sizes `≥ 4`, resuming can emit states the
fresh run never emits and skip states it would emit.) -/
theorem claim_C2_amended (n : Nat) (hn : 3 ≤ n) (l1 l2 : List (List Nat))
    (s : List Nat) (hdecomp : freshStates n 3 = l1 ++ s :: l2) :
    resumeStates n 3 s = s :: l2 := by
  have hcolex : colexCombos n 3 = l1 ++ s :: l2 := by
    rw [← freshStates_three n hn]
    exact hdecomp
  have hsub : ∀ x ∈ s :: l2, x ∈ colexCombos n 3 := by
    intro x hx
    rw [hcolex]
    exact List.mem_append_right _ hx
  have hmem3 : ∀ x ∈ s :: l2, IsCombo n x ∧ x.length = 3 := by
    intro x hx
    exact (mem_colexCombos n 3 x).mp (hsub x hx)
  have hchain : List.Chain' (fun a b => combSucc 0 a = b) (s :: l2) := by
    have hch := chain'_colexCombos n 3
    rw [hcolex] at hch
    exact (List.chain'_append.mp hch).2.1
  have hlastd : (s :: l2).getLastD [] = (colexCombos n 3).getLastD [] := by
    rw [hcolex, List.getLastD_eq_getLast?, List.getLastD_eq_getLast?,
      List.getLast?_append]
    cases hgl : (s :: l2).getLast? with
    | none => simp at hgl
    | some v => simp [hgl]
  have hlast : combSucc 0 ((s :: l2).getLastD []) = List.range 2 ++ [n] := by
    rw [hlastd]
    exact colexCombos_succ_last n 3 (by omega) hn
  have hlen_le : (s :: l2).length ≤ 2 ^ n := by
    have h1 : (colexCombos n 3).length = (l1 ++ s :: l2).length := by rw [hcolex]
    rw [List.length_append, length_colexCombos] at h1
    have hch3 := choose_le_two_pow n 3 hn
    omega
  have hchunk := combinations_chunk n 3 (s :: l2) 3 (2 ^ n - (s :: l2).length)
    (by omega) hmem3 hchain hlast (by simp)
  have hfuel : (s :: l2).length + (2 ^ n - (s :: l2).length) = 2 ^ n := by omega
  rw [hfuel] at hchunk
  rw [show (s :: l2).headI = s from rfl, if_neg (lt_irrefl 3),
    List.append_nil] at hchunk
  show (combinations n 3 s (genFuel n)).flatMap stateBlock = s :: l2
  rw [show genFuel n = 2 ^ n from rfl, hchunk]
  exact flatMap_stateBlock_id (fun c hc => (hmem3 c hc).2)

/-- Witness for the amended claim C2 at `n = 4` resuming from `(0,1,3)`. -/
theorem claim_C2_witness :
    freshStates 4 3 = [[0, 1, 2]] ++ [0, 1, 3] :: [[0, 2, 3], [1, 2, 3]] ∧
    resumeStates 4 3 [0, 1, 3] = [0, 1, 3] :: [[0, 2, 3], [1, 2, 3]] :=
  ⟨by decide,
   claim_C2_amended 4 (by decide) [[0, 1, 2]] [[0, 2, 3], [1, 2, 3]]
     [0, 1, 3] (by decide)⟩

/-- Claim C3: for every 4-element combination skeleton, the enumerator never
emits both an ordering of the skeleton and its reversal-equivalent
counterpart in one run. -/
theorem claim_C3 (n m : Nat) (h3 : 3 ≤ m) (hmn : m ≤ n) (c : List Nat)
    (hc : IsCombo n c) (hlen : c.length = 4) (t : List Nat) (ht : t.Perm c)
    (hmem : t ∈ freshStates n m) : revCounterpart t ∉ freshStates n m := by
  intro hrev
  rcases (mem_freshStates n m h3 hmn t).mp hmem with ⟨c1, hc1, h3c1, _, hblk1⟩
  have hc1ne : c1 ≠ [] := by intro hcc; subst hcc; simp at h3c1
  have ht1 : t.Perm c1 := mem_stateBlock_perm hc1ne hblk1
  have hceq1 : c1 = c := perm_sorted_eq (ht1.symm.trans ht) hc1.1 hc.1
  rw [hceq1] at hblk1
  have htne : t ≠ [] := by
    intro hcc
    subst hcc
    have hl := ht.length_eq
    rw [hlen] at hl
    simp at hl
  have htrev : (revCounterpart t).Perm t := by
    unfold revCounterpart
    have hh : (t.headI :: t.tail.reverse).Perm (t.headI :: t.tail) :=
      (t.tail.reverse_perm).cons _
    rwa [cons_headI_tail htne] at hh
  rcases (mem_freshStates n m h3 hmn _).mp hrev with ⟨c2, hc2, h3c2, _, hblk2⟩
  have hc2ne : c2 ≠ [] := by intro hcc; subst hcc; simp at h3c2
  have ht2 : (revCounterpart t).Perm c2 := mem_stateBlock_perm hc2ne hblk2
  have hceq2 : c2 = c := perm_sorted_eq (ht2.symm.trans (htrev.trans ht)) hc2.1 hc.1
  rw [hceq2] at hblk2
  rcases length_eq_four hlen with ⟨a, b, d, e, rfl⟩
  have h' := hc.1
  rw [List.pairwise_cons] at h'
  have hab : a < b := h'.1 b (by simp)
  have h'' := h'.2
  rw [List.pairwise_cons] at h''
  have hbd : b < d := h''.1 d (by simp)
  have h''' := h''.2
  rw [List.pairwise_cons] at h'''
  have hde : d < e := h'''.1 e (by simp)
  rw [stateBlock_four] at hblk1 hblk2
  simp only [List.mem_cons, List.not_mem_nil, or_false] at hblk1 hblk2
  rcases hblk1 with rfl | rfl | rfl <;>
    rcases hblk2 with h | h | h <;>
    simp only [revCounterpart, List.headI_cons, List.tail_cons,
      List.reverse_cons, List.reverse_nil, List.nil_append,
      List.singleton_append, List.cons_append, List.cons.injEq] at h <;>
    omega

/-- Witness for claim C3 at the skeleton `(0,1,2,3)` with `n = m = 4`:
`(0,1,2,3)` is emitted and `(0,3,2,1)` is not. -/
theorem claim_C3_witness :
    [0, 1, 2, 3] ∈ freshStates 4 4 ∧
    revCounterpart [0, 1, 2, 3] = [0, 3, 2, 1] ∧
    revCounterpart [0, 1, 2, 3] ∉ freshStates 4 4 :=
  ⟨by decide, by decide,
   claim_C3 4 4 (by decide) (by decide) [0, 1, 2, 3] (by decide) (by decide)
     [0, 1, 2, 3] (by decide) (by decide)⟩

/-- Claim C9: in a fresh run, the first element of every emitted state is
strictly smaller than every other element of the state (the anchor is the
lowest index of the chosen subset, since skeletons are strictly
increasing). -/
theorem claim_C9 (n m : Nat) (h3 : 3 ≤ m) (hmn : m ≤ n) (s : List Nat)
    (hs : s ∈ freshStates n m) : ∀ x ∈ s.tail, s.headI < x := by
  rcases (mem_freshStates n m h3 hmn s).mp hs with ⟨c, hc, h3c, _, hblk⟩
  rcases mem_stateBlock hblk with ⟨p, rfl, hperm⟩
  intro x hx
  simp only [List.tail_cons] at hx
  simp only [List.headI_cons]
  have hxc : x ∈ c.tail := hperm.subset hx
  have hcne : c ≠ [] := by intro hcc; subst hcc; simp at h3c
  have hpw : List.Pairwise (· < ·) (c.headI :: c.tail) := by
    rw [cons_headI_tail hcne]
    exact hc.1
  rw [List.pairwise_cons] at hpw
  exact hpw.1 x hxc

/-- Witness for claim C9 at the emitted state `(0,2,3)` of the run with
`n = 4`, `m = 3`. -/
theorem claim_C9_witness :
    [0, 2, 3] ∈ freshStates 4 3 ∧ ∀ x ∈ [0, 2, 3].tail, [0, 2, 3].headI < x :=
  ⟨by decide,
   claim_C9 4 3 (by decide) (by decide) [0, 2, 3] (by decide)⟩

/-! ## Claim theorems: the evaluator -/

theorem filterMap_getElem_eq_map {α : Type} (l : List α) (d : α) :
    ∀ (idx : List Nat), (∀ i ∈ idx, i < l.length) →
      idx.filterMap (fun i => l[i]?) = idx.map (fun i => l.getD i d)
  | [], _ => rfl
  | i :: t, h => by
    have hi : i < l.length := h i (by simp)
    rw [List.map_cons,
      List.filterMap_cons_some (by rw [List.getElem?_eq_getElem hi]),
      filterMap_getElem_eq_map l d t (fun j hj => h j (by simp [hj]))]
    congr 1
    rw [List.getD_eq_getElem?_getD, List.getElem?_eq_getElem hi]
    rfl

/-- Claim C4 (counterexample): a state whose embedding contains a NaN
coordinate makes the `assert` of `_evaluate_projection` raise an
AssertionError past the evaluator; no worst-possible score is returned. -/
theorem claim_C4_counterexample :
    compute_score coZero true 100 [(none, some 0), (some 1, some 0)] [0, 1] =
      Except.error EvalError.assertionFailed := by
  rfl

/-- Claim C4 (amended): evaluation is not shielded.  Whenever the (possibly
subsampled) embedding contains a NaN coordinate, `compute_score` propagates
an assertion failure out of the evaluator rather than assigning a worst
score; only NaN-free embeddings produce a score (and hence a leaderboard
entry). -/
theorem claim_C4_amended (co : Collab) (isDiscrete : Bool) (percent : Nat)
    (x : List (Option ℚ × Option ℚ)) (y : List ℚ) :
    (hasNaN (subsampleStep co percent x y).1 = true →
      compute_score co isDiscrete percent x y =
        Except.error EvalError.assertionFailed) ∧
    (hasNaN (subsampleStep co percent x y).1 = false →
      compute_score co isDiscrete percent x y =
        Except.ok (-(listMean (co.crossValScores 3 isDiscrete 3
          ((subsampleStep co percent x y).1.map
            (fun p => (p.1.getD 0, p.2.getD 0)))
          (subsampleStep co percent x y).2)))) := by
  constructor
  · intro h
    simp [compute_score, evaluate_projection, h, Except.map]
  · intro h
    simp [compute_score, evaluate_projection, h, Except.map]

/-- Witness for the amended claim C4: a NaN coordinate raises, a NaN-free
embedding is scored. -/
theorem claim_C4_witness :
    compute_score coZero true 100 [(none, some 0)] [0] =
      Except.error EvalError.assertionFailed ∧
    compute_score coZero true 100 [(some 1, some 2)] [0] =
      Except.ok (-(listMean (coZero.crossValScores 3 true 3
        ((subsampleStep coZero 100 [(some 1, some 2)] [0]).1.map
          (fun p => (p.1.getD 0, p.2.getD 0)))
        (subsampleStep coZero 100 [(some 1, some 2)] [0]).2))) :=
  ⟨(claim_C4_amended coZero true 100 [(none, some 0)] [0]).1 (by decide),
   (claim_C4_amended coZero true 100 [(some 1, some 2)] [0]).2 (by decide)⟩

/-- Claim C6: for every state the evaluator first subsamples the rows
without replacement to `⌊len·percent/100⌋` rows when the percentage differs
from `100` (all rows when it equals `100`), then scores the embedded 2D
points with a 3-nearest-neighbour classifier (discrete target) or regressor
(continuous target) — the Boolean passed to the collaborator — and returns
the mean of the 3-fold cross-validation scores. -/
theorem claim_C6 (co : Collab) (isDiscrete : Bool) (percent : Nat)
    (x : List (Option ℚ × Option ℚ)) (y : List ℚ)
    (hy : y.length = x.length) (hperc : percent ≤ 100)
    (hchoice : ∀ nn kk, kk ≤ nn → (co.choice nn kk).Nodup ∧
      (co.choice nn kk).length = kk ∧ ∀ i ∈ co.choice nn kk, i < nn) :
    (percent = 100 → subsampleStep co percent x y = (x, y)) ∧
    (percent ≠ 100 →
      (subsampleStep co percent x y).1 =
        (co.choice x.length (x.length * percent / 100)).map
          (fun i => x.getD i (none, none)) ∧
      (subsampleStep co percent x y).2 =
        (co.choice x.length (x.length * percent / 100)).map
          (fun i => y.getD i 0) ∧
      (subsampleStep co percent x y).1.length = x.length * percent / 100 ∧
      (co.choice x.length (x.length * percent / 100)).Nodup) ∧
    (hasNaN (subsampleStep co percent x y).1 = false →
      evaluate_projection co isDiscrete percent x y =
        Except.ok (listMean (co.crossValScores 3 isDiscrete 3
          ((subsampleStep co percent x y).1.map
            (fun p => (p.1.getD 0, p.2.getD 0)))
          (subsampleStep co percent x y).2))) := by
  have hkle : x.length * percent / 100 ≤ x.length := by
    have h1 : x.length * percent ≤ x.length * 100 :=
      Nat.mul_le_mul_left _ hperc
    have h2 : x.length * percent / 100 ≤ x.length * 100 / 100 :=
      Nat.div_le_div_right h1
    omega
  have hco := hchoice x.length (x.length * percent / 100) hkle
  refine ⟨?_, ?_, ?_⟩
  · intro h
    subst h
    simp [subsampleStep]
  · intro h
    have hsub : subsampleStep co percent x y =
        ((co.choice x.length (x.length * percent / 100)).filterMap
          (fun i => x[i]?),
         (co.choice x.length (x.length * percent / 100)).filterMap
          (fun i => y[i]?)) := by
      unfold subsampleStep
      rw [if_pos h]
    rw [hsub]
    refine ⟨?_, ?_, ?_, hco.1⟩
    · exact filterMap_getElem_eq_map x (none, none) _ hco.2.2
    · exact filterMap_getElem_eq_map y 0 _ (fun i hi => by
        rw [hy]; exact hco.2.2 i hi)
    · rw [filterMap_getElem_eq_map x (none, none) _ hco.2.2,
        List.length_map, hco.2.1]
  · intro h
    simp [evaluate_projection, h]

/-- Witness for claim C6 with the concrete collaborator `coZero` at
`percent = 100`. -/
theorem claim_C6_witness :
    subsampleStep coZero 100 [(some 1, some 2)] [5] = ([(some 1, some 2)], [5]) :=
  (claim_C6 coZero true 100 [(some 1, some 2)] [5] rfl (by decide)
    (fun nn kk hk => ⟨List.nodup_range kk, List.length_range kk,
      fun i hi => lt_of_lt_of_le (List.mem_range.mp hi) hk⟩)).1 rfl

/-- Claim C7: `compute_score` returns the negation of the mean
cross-validated score (lower stored = better quality), and the leaderboard
row for a state displays the re-negated stored score formatted to six
decimal places followed by the comma-joined variable names in the state's
emitted order — so the displayed quality is exactly the mean cross-validated
score. -/
theorem claim_C7 (co : Collab) (isDiscrete : Bool) (percent : Nat)
    (x : List (Option ℚ × Option ℚ)) (y : List ℚ) (attrNames : List String)
    (state : List Nat)
    (hok : hasNaN (subsampleStep co percent x y).1 = false) :
    ∃ s, compute_score co isDiscrete percent x y = Except.ok s ∧
      s = -(listMean (co.crossValScores 3 isDiscrete 3
        ((subsampleStep co percent x y).1.map
          (fun p => (p.1.getD 0, p.2.getD 0)))
        (subsampleStep co percent x y).2)) ∧
      row_for_state attrNames s state =
        "[" ++ formatFixed6 (listMean (co.crossValScores 3 isDiscrete 3
          ((subsampleStep co percent x y).1.map
            (fun p => (p.1.getD 0, p.2.getD 0)))
          (subsampleStep co percent x y).2)) ++ "] " ++
        String.intercalate ", " (state.map (fun i => (attrNames[i]?).getD "")) := by
  refine ⟨_, ?_, rfl, ?_⟩
  · simp [compute_score, evaluate_projection, hok, Except.map]
  · unfold row_for_state
    rw [neg_neg]

/-- Witness for claim C7 at a concrete one-point NaN-free evaluation. -/
theorem claim_C7_witness :
    ∃ s, compute_score coZero true 100 [(some 1, some 2)] [0] = Except.ok s ∧
      s = -(listMean (coZero.crossValScores 3 true 3
        ((subsampleStep coZero 100 [(some 1, some 2)] [0]).1.map
          (fun p => (p.1.getD 0, p.2.getD 0)))
        (subsampleStep coZero 100 [(some 1, some 2)] [0]).2)) ∧
      row_for_state ["alpha", "beta"] s [1, 0] =
        "[" ++ formatFixed6 (listMean (coZero.crossValScores 3 true 3
          ((subsampleStep coZero 100 [(some 1, some 2)] [0]).1.map
            (fun p => (p.1.getD 0, p.2.getD 0)))
          (subsampleStep coZero 100 [(some 1, some 2)] [0]).2)) ++ "] " ++
        String.intercalate ", "
          ([1, 0].map (fun i => ((["alpha", "beta"] : List String)[i]?).getD "")) :=
  claim_C7 coZero true 100 [(some 1, some 2)] [0] ["alpha", "beta"] [1, 0]
    (by decide)

/-- Claim C10: with `percent_data_used = 100` (the default) the evaluator
performs no random subsampling, so `compute_score` is a deterministic
function of the data — any two random sources give equal results; a random
draw, and hence possible nondeterminism, arises only when the percentage
differs from `100`. -/
theorem claim_C10 :
    (∀ (cv : Nat → Bool → Nat → List (ℚ × ℚ) → List ℚ → List ℚ)
        (ch1 ch2 : Nat → Nat → List Nat) (isDiscrete : Bool)
        (x : List (Option ℚ × Option ℚ)) (y : List ℚ),
      compute_score ⟨cv, ch1⟩ isDiscrete 100 x y =
        compute_score ⟨cv, ch2⟩ isDiscrete 100 x y) ∧
    (∃ (cv : Nat → Bool → Nat → List (ℚ × ℚ) → List ℚ → List ℚ)
        (ch1 ch2 : Nat → Nat → List Nat) (isDiscrete : Bool)
        (x : List (Option ℚ × Option ℚ)) (y : List ℚ) (percent : Nat),
      percent ≠ 100 ∧
        compute_score ⟨cv, ch1⟩ isDiscrete percent x y ≠
          compute_score ⟨cv, ch2⟩ isDiscrete percent x y) := by
  constructor
  · intro cv ch1 ch2 isDiscrete x y
    rfl
  · refine ⟨fun _ _ _ xs _ => [(xs.headD (0, 0)).1], fun _ _ => [0],
      fun _ _ => [1], true, [(some 0, some 0), (some 1, some 1)], [0, 0], 50,
      by decide, ?_⟩
    simp only [compute_score, evaluate_projection, subsampleStep, hasNaN,
      listMean]
    norm_num [List.filterMap_cons, Except.map]

/-! ## Claim theorems: preconditions -/

theorem sum_sq_zero_iff : ∀ (l : List ℚ),
    (l.map (fun v => v ^ 2)).sum = 0 ↔ ∀ v ∈ l, v = 0
  | [] => by simp
  | a :: t => by
    simp only [List.map_cons, List.sum_cons]
    constructor
    · intro h
      have ha2 : (0 : ℚ) ≤ a ^ 2 := sq_nonneg a
      have hts : (0 : ℚ) ≤ (t.map (fun v => v ^ 2)).sum := by
        apply List.sum_nonneg
        intro x hx
        rcases List.mem_map.mp hx with ⟨v, _, rfl⟩
        exact sq_nonneg v
      have ha : a ^ 2 = 0 := by linarith
      have ht : (t.map (fun v => v ^ 2)).sum = 0 := by linarith
      intro v hv
      rcases List.mem_cons.mp hv with rfl | hvt
      · exact (pow_eq_zero_iff (two_ne_zero)).mp ha
      · exact (sum_sq_zero_iff t).mp ht v hvt
    · intro h
      rw [(sum_sq_zero_iff t).mpr (fun v hv => h v (by simp [hv])),
        h a (by simp)]
      simp

theorem sum_const_of_all (l : List ℚ) (a : ℚ) (h : ∀ v ∈ l, v = a) :
    l.sum = (l.length : ℚ) * a := by
  induction l with
  | nil => simp
  | cons x t ih =>
    simp only [List.sum_cons, List.length_cons]
    rw [h x (by simp), ih (fun v hv => h v (by simp [hv]))]
    push_cast
    ring

theorem nanVariance_zero_iff (col : List (Option ℚ)) :
    nanVariance col = some 0 ↔
      nanValues col ≠ [] ∧ ∀ a ∈ nanValues col, ∀ b ∈ nanValues col, a = b := by
  unfold nanVariance
  by_cases he : (nanValues col).isEmpty
  · rw [if_pos he]
    have hnil : nanValues col = [] := List.isEmpty_iff.mp he
    simp [hnil]
  · rw [if_neg he]
    have hne : nanValues col ≠ [] := by
      intro hc
      rw [hc] at he
      simp at he
    have hlen0 : ((nanValues col).length : ℚ) ≠ 0 := by
      simp only [ne_eq, Nat.cast_eq_zero, List.length_eq_zero]
      exact hne
    simp only [Option.some.injEq]
    constructor
    · intro h
      refine ⟨hne, fun a ha b hb => ?_⟩
      rcases div_eq_zero_iff.mp h with h' | h'
      · have hmap : (nanValues col).map
            (fun v => (v - (nanValues col).sum / ((nanValues col).length : ℚ)) ^ 2) =
            ((nanValues col).map
              (fun v => v - (nanValues col).sum / ((nanValues col).length : ℚ))).map
              (fun v => v ^ 2) := by
          rw [List.map_map]
          rfl
        rw [hmap] at h'
        have hall := (sum_sq_zero_iff _).mp h'
        have hmu : ∀ v ∈ nanValues col,
            v = (nanValues col).sum / ((nanValues col).length : ℚ) := by
          intro v hv
          have := hall (v - (nanValues col).sum / ((nanValues col).length : ℚ))
            (List.mem_map_of_mem _ hv)
          linarith
        rw [hmu a ha, hmu b hb]
      · exact absurd h' hlen0
    · rintro ⟨_, hall⟩
      obtain ⟨a, ha⟩ := List.exists_mem_of_ne_nil _ hne
      have hmu : (nanValues col).sum / ((nanValues col).length : ℚ) = a := by
        rw [sum_const_of_all (nanValues col) a (fun v hv => hall v hv a ha)]
        field_simp
      have hzero : ∀ x ∈ (nanValues col).map
          (fun v => (v - (nanValues col).sum / ((nanValues col).length : ℚ)) ^ 2),
          x = 0 := by
        intro x hx
        rcases List.mem_map.mp hx with ⟨v, hv, rfl⟩
        rw [hmu, hall v hv a ha]
        ring
      rw [List.sum_eq_zero hzero]
      simp

theorem colStdNonzero_iff (col : List (Option ℚ)) :
    colStdNonzero col = true ↔
      ∃ a ∈ nanValues col, ∃ b ∈ nanValues col, a ≠ b := by
  unfold colStdNonzero
  by_cases he : (nanValues col).isEmpty
  · have hnone : nanVariance col = none := by
      unfold nanVariance
      rw [if_pos he]
    rw [hnone]
    have hnil : nanValues col = [] := List.isEmpty_iff.mp he
    simp [hnil]
  · have hne : nanValues col ≠ [] := by
      intro hc
      rw [hc] at he
      simp at he
    have hsome : nanVariance col = some ((((nanValues col).map
        (fun v => (v - (nanValues col).sum / ((nanValues col).length : ℚ)) ^ 2)).sum) /
        ((nanValues col).length : ℚ)) := by
      unfold nanVariance
      rw [if_neg he]
    rw [hsome]
    simp only [decide_eq_true_eq]
    constructor
    · intro hvne
      by_contra hno
      push_neg at hno
      have h0 : nanVariance col = some 0 :=
        (nanVariance_zero_iff col).mpr ⟨hne, hno⟩
      rw [hsome] at h0
      simp only [Option.some.injEq] at h0
      exact hvne h0
    · rintro ⟨a, ha, b, hb, hab⟩ hv0
      have h0 : nanVariance col = some 0 := by
        rw [hsome, hv0]
      exact hab (((nanVariance_zero_iff col).mp h0).2 a ha b hb)

theorem nanValues_mem (col : List (Option ℚ)) (v : ℚ) :
    v ∈ nanValues col ↔ some v ∈ col := by
  unfold nanValues
  rw [List.mem_filterMap]
  constructor
  · rintro ⟨a, ha, hav⟩
    have hav2 : a = some v := hav
    exact hav2 ▸ ha
  · intro h
    exact ⟨some v, h, rfl⟩

theorem nanValues_ne_nil_iff (col : List (Option ℚ)) :
    nanValues col ≠ [] ↔ ∃ v, some v ∈ col := by
  constructor
  · intro h
    obtain ⟨v, hv⟩ := List.exists_mem_of_ne_nil _ h
    exact ⟨v, (nanValues_mem col v).mp hv⟩
  · rintro ⟨v, hv⟩ hc
    have hmem : v ∈ nanValues col := (nanValues_mem col v).mpr hv
    rw [hc] at hmem
    simp at hmem

theorem initBlocked_false_iff (d : MasterData) :
    initBlocked d = false ↔
      (2 ≤ d.X.length ∧ 4 ≤ d.nPrimitive ∧ d.hasColor = true ∧
        (∃ v, some v ∈ d.Y) ∧ 2 ≤ validRowCount d ∧
        ∀ col ∈ d.X.transpose,
          ∃ a ∈ nanValues col, ∃ b ∈ nanValues col, a ≠ b) := by
  unfold initBlocked
  rw [Bool.or_eq_false_iff]
  have hcd : ((check_data d).isSome = false) ↔
      (2 ≤ d.X.length ∧ 3 ≤ d.nPrimitive) := by
    unfold check_data
    split_ifs with h1 h2
    · simp
      omega
    · simp
      omega
    · simp
      omega
  have hen : ((!init_vizrank_enabled d) = false) ↔
      (3 < d.nPrimitive ∧ d.hasColor = true ∧ (∃ v, some v ∈ d.Y) ∧
        1 < validRowCount d ∧
        ∀ col ∈ d.X.transpose,
          ∃ a ∈ nanValues col, ∃ b ∈ nanValues col, a ≠ b) := by
    rw [Bool.not_eq_false']
    unfold init_vizrank_enabled
    simp only [Bool.and_eq_true, decide_eq_true_eq, List.all_eq_true,
      Bool.not_eq_true']
    constructor
    · rintro ⟨⟨⟨⟨h1, h2⟩, h3⟩, h4⟩, h5⟩
      refine ⟨h1, h2, ?_, h4, fun col hcol => (colStdNonzero_iff col).mp (h5 col hcol)⟩
      rw [← nanValues_ne_nil_iff]
      intro hc
      rw [hc] at h3
      simp at h3
    · rintro ⟨h1, h2, h3, h4, h5⟩
      refine ⟨⟨⟨⟨h1, h2⟩, ?_⟩, h4⟩,
        fun col hcol => (colStdNonzero_iff col).mpr (h5 col hcol)⟩
      rw [List.isEmpty_eq_false]
      exact (nanValues_ne_nil_iff d.Y).mpr h3
  rw [hcd, hen]
  constructor
  · rintro ⟨⟨ha1, ha2⟩, hb1, hb2, hb3, hb4, hb5⟩
    exact ⟨ha1, by omega, hb2, hb3, by omega, hb5⟩
  · rintro ⟨h1, h2, h3, h4, h5, h6⟩
    exact ⟨⟨h1, by omega⟩, by omega, h3, h4, by omega, h6⟩

/-- Claim C5 (counterexample): a two-row dataset whose colour column
(the target) is present but has zero variance is accepted — the run is not
blocked — although the claim requires initialization to fail whenever the
target has no variance.  The code checks the variance of the feature
columns, not of the target. -/
theorem claim_C5_counterexample :
    initBlocked exampleConstTarget = false ∧
    nanValues exampleConstTarget.Y ≠ [] ∧
    (∀ a ∈ nanValues exampleConstTarget.Y,
      ∀ b ∈ nanValues exampleConstTarget.Y, a = b) := by
  refine ⟨?_, ?_, ?_⟩
  · rw [initBlocked_false_iff]
    refine ⟨by decide, by decide, rfl, ⟨0, by simp [exampleConstTarget]⟩,
      by decide, ?_⟩
    intro col hcol
    have ht : exampleConstTarget.X.transpose =
        [[some 0, some 1], [some 0, some 1], [some 0, some 1],
         [some 0, some 1]] := rfl
    rw [ht] at hcol
    simp only [List.mem_cons, List.not_mem_nil, or_false] at hcol
    rcases hcol with rfl | rfl | rfl | rfl <;>
      exact ⟨0, by simp [nanValues], 1, by simp [nanValues], by norm_num⟩
  · simp [nanValues, exampleConstTarget]
  · intro a ha b hb
    simp [nanValues, exampleConstTarget] at ha hb
    rw [ha, hb]

/-- Claim C5 (amended): the vizrank run is blocked unless the dataset has at
least two rows, more than three primitive variables (at least three usable
candidates beside the colour), a colour attribute with a non-missing value,
at least two valid rows, and — the code checks feature variance, not target
variance — every feature column carrying two distinct non-missing values;
in particular a one-row dataset is always blocked. -/
theorem claim_C5_amended (d : MasterData) :
    (initBlocked d = false ↔
      (2 ≤ d.X.length ∧ 4 ≤ d.nPrimitive ∧ d.hasColor = true ∧
        (∃ v, some v ∈ d.Y) ∧ 2 ≤ validRowCount d ∧
        ∀ col ∈ d.X.transpose,
          ∃ a ∈ nanValues col, ∃ b ∈ nanValues col, a ≠ b)) ∧
    (d.X.length = 1 → initBlocked d = true) := by
  refine ⟨initBlocked_false_iff d, ?_⟩
  intro h1
  by_contra hc
  have hfalse : initBlocked d = false := by
    cases hb : initBlocked d
    · rfl
    · exact absurd hb hc
  rcases (initBlocked_false_iff d).mp hfalse with ⟨h2, _⟩
  omega

/-- Witness for the amended claim C5: the concrete one-row dataset is
blocked. -/
theorem claim_C5_witness : initBlocked exampleOneRow = true :=
  (claim_C5_amended exampleOneRow).2 (by decide)

/-! ## Claim theorems: run preparation -/

/-- Claim C8 (counterexample): starting a run with the same maximum subset
size as the last run but with no saved checkpoint clears the leaderboard yet
leaves the progress counter unchanged — it is not reset to zero as the claim
states. -/
theorem claim_C8_counterexample :
    exampleRankState.saved_state = none ∧
    exampleRankState.last_run_n_attrs = some exampleRankState.n_attrs ∧
    (before_running exampleRankState).scores = [] ∧
    (before_running exampleRankState).rank_model = [] ∧
    (before_running exampleRankState).saved_progress = 5 :=
  ⟨rfl, rfl, rfl, rfl, rfl⟩

/-- Claim C8 (amended): `before_running` discards the checkpoint and zeroes
the progress exactly when the requested size differs from the last run's;
it clears the leaderboard (scores and rank model) when the size differs or
no checkpoint exists — leaving the progress counter untouched in the latter
case — and on a genuine resume (same size, checkpoint present) it leaves
checkpoint, progress and leaderboard unchanged, only recording the run size
and disabling the spin. -/
theorem claim_C8_amended (st : RankState) :
    before_running st =
      { n_attrs := st.n_attrs,
        last_run_n_attrs := some st.n_attrs,
        saved_state :=
          if st.last_run_n_attrs ≠ some st.n_attrs then none
          else st.saved_state,
        saved_progress :=
          if st.last_run_n_attrs ≠ some st.n_attrs then 0
          else st.saved_progress,
        scores :=
          if st.last_run_n_attrs ≠ some st.n_attrs ∨ st.saved_state = none
          then [] else st.scores,
        rank_model :=
          if st.last_run_n_attrs ≠ some st.n_attrs ∨ st.saved_state = none
          then [] else st.rank_model,
        spin_disabled := true } := by
  unfold before_running
  by_cases h1 : st.last_run_n_attrs ≠ some st.n_attrs
  · simp [h1]
  · by_cases h2 : st.saved_state = none
    · simp [h1, h2]
    · simp [h1, h2]

/-- Witness for the amended claim C8 at the concrete state. -/
theorem claim_C8_witness :
    before_running exampleRankState =
      { n_attrs := 3, last_run_n_attrs := some 3, saved_state := none,
        saved_progress := 5, scores := [], rank_model := [],
        spin_disabled := true } :=
  claim_C8_amended exampleRankState

/-- Witness for claim C10: two different random sources at full data usage. -/
theorem claim_C10_witness :
    compute_score ⟨fun _ _ _ _ _ => [0, 0, 0], fun _ k => List.range k⟩ true 100
        [(some 1, some 2)] [0] =
      compute_score ⟨fun _ _ _ _ _ => [0, 0, 0], fun _ _ => [5]⟩ true 100
        [(some 1, some 2)] [0] :=
  claim_C10.1 (fun _ _ _ _ _ => [0, 0, 0]) (fun _ k => List.range k)
    (fun _ _ => [5]) true [(some 1, some 2)] [0]
